import Mathlib

/-!
Verification of the `multimap_smallvec` crate (`src/lib.rs`).

The crate stores a `MultiMap<K, V>` as `HashMap<K, SmallVec<[V; N]>>`.
We embed it shallowly:

* a `SmallVec` group is a `List V` (same observable contents and order);
* the `HashMap` is an association list `List (K × List V)` whose keys are
  pairwise distinct for every map built through the public API; the
  `HashMap` iteration order is arbitrary in Rust, so no theorem below
  depends on entry order except through operations that are themselves
  order-independent (`get`, `len`, equality, ...);
* `std::collections::hash_map::Entry` (occupied/vacant dispatch) becomes
  `entryUpdate`;
* a panic (`Index` on a missing key, `v[0]` on an empty group) becomes
  `Except.error` carrying the panic message.
-/

set_option linter.unusedSectionVars false
set_option linter.unnecessarySeqFocus false

namespace MultiMapSpec

/-- The map state: `MultiMap { inner: HashMap<K, SmallVec<[V; N]>> }`
(src/lib.rs line 93), with the hash table embedded as an association
list of key/group entries. -/
structure MultiMap (K V : Type) where
  inner : List (K × List V)
deriving Repr, DecidableEq

variable {K V : Type} [DecidableEq K] [DecidableEq V]

/-- `HashMap::get` on the association-list embedding: the group of the
first (under the nodup-keys invariant, unique) entry for key `k`. -/
def hmGet (l : List (K × List V)) (k : K) : Option (List V) :=
  match l with
  | [] => none
  | (k2, g) :: rest => if k2 = k then some g else hmGet rest k

/-- The `HashMap::entry(k)` pattern used by the insertion functions
(src/lib.rs lines 206-215, 231-240): if an entry for `k` is occupied,
replace its group `g` by `f g`; if vacant, insert a new entry `(k, v0)`. -/
def entryUpdate (l : List (K × List V)) (k : K) (f : List V → List V)
    (v0 : List V) : List (K × List V) :=
  match l with
  | [] => [(k, v0)]
  | (k2, g) :: rest =>
    if k2 = k then (k2, f g) :: rest else (k2, g) :: entryUpdate rest k f v0

/-- `MultiMap::new` (src/lib.rs line 133): the empty table. -/
def MultiMap.empty : MultiMap K V := ⟨[]⟩

/-- `MultiMap::insert` (src/lib.rs lines 206-215): occupied entry pushes
`v`, vacant entry inserts the singleton group `smallvec![v]`. -/
def MultiMap.insert (m : MultiMap K V) (k : K) (v : V) : MultiMap K V :=
  ⟨entryUpdate m.inner k (fun g => g ++ [v]) [v]⟩

/-- `MultiMap::insert_many` (src/lib.rs lines 231-240): occupied entry
extends the group with `vs`, vacant entry inserts the collected `vs`
(note: also when `vs` is empty). -/
def MultiMap.insertMany (m : MultiMap K V) (k : K) (vs : List V) :
    MultiMap K V :=
  ⟨entryUpdate m.inner k (fun g => g ++ vs) vs⟩

/-- `MultiMap::contains_key` (src/lib.rs lines 285-291). -/
def MultiMap.containsKey (m : MultiMap K V) (k : K) : Bool :=
  (hmGet m.inner k).isSome

/-- `MultiMap::len` (src/lib.rs lines 305-307): number of keys. -/
def MultiMap.len (m : MultiMap K V) : Nat := m.inner.length

/-- `MultiMap::remove` (src/lib.rs lines 326-332): returns the removed
group as an in-order sequence (the `SmallVec` into-iterator), paired
with the table with the entry for `k` removed. -/
def MultiMap.remove (m : MultiMap K V) (k : K) :
    Option (List V) × MultiMap K V :=
  (hmGet m.inner k, ⟨m.inner.filter (fun p => p.1 ≠ k)⟩)

/-- `MultiMap::get` (src/lib.rs lines 350-356):
`self.inner.get(k)?.get(0)`. -/
def MultiMap.get (m : MultiMap K V) (k : K) : Option V :=
  (hmGet m.inner k).bind List.head?

/-- `MultiMap::get_slice` (src/lib.rs lines 400-406):
`self.inner.get(k).map(|i| i.as_slice())`. -/
def MultiMap.getSlice (m : MultiMap K V) (k : K) : Option (List V) :=
  hmGet m.inner k

/-- `MultiMap::is_vec` (src/lib.rs lines 463-472). -/
def MultiMap.isVec (m : MultiMap K V) (k : K) : Bool :=
  match m.getSlice k with
  | some val => decide (1 < val.length)
  | none => false

/-- `MultiMap::keys` (src/lib.rs lines 539-541). -/
def MultiMap.keys (m : MultiMap K V) : List K := m.inner.map Prod.fst

/-- `MultiMap::iter_all` (src/lib.rs lines 616-618): every entry, each
key paired with its whole group as a slice. -/
def MultiMap.iterAll (m : MultiMap K V) : List (K × List V) := m.inner

/-- `MultiMap::retain` (src/lib.rs lines 706-715): first filter every
group in place with `SmallVec::retain` (order preserved), then drop
every entry whose group ended up empty. -/
def MultiMap.retain (m : MultiMap K V) (f : K → V → Bool) : MultiMap K V :=
  ⟨(m.inner.map (fun p => (p.1, p.2.filter (f p.1)))).filter
    (fun p => !p.2.isEmpty)⟩

/-- `Index for MultiMap` (src/lib.rs lines 718-732):
`self.inner.get(index).map(|v| &v[0]).expect("no entry found for key")`.
A missing key panics with the `expect` message; a present key with an
empty group panics inside `&v[0]` with the slice-indexing message.
Panics are embedded as `Except.error`. -/
def MultiMap.index (m : MultiMap K V) (k : K) : Except String V :=
  match hmGet m.inner k with
  | none => Except.error "no entry found for key"
  | some g =>
    match g.head? with
    | some v => Except.ok v
    | none => Except.error "index out of bounds"

/-- One `MultiMapValue::pop` through `MultiMap::get_all_mut`
(src/lib.rs lines 436-442 and 115-117): `SmallVec::pop` removes the
last element of the group of `k`; a missing key is a no-op
(`get_all_mut` returns `None`). -/
def MultiMap.pop (m : MultiMap K V) (k : K) : MultiMap K V :=
  ⟨m.inner.map (fun p => if p.1 = k then (p.1, p.2.dropLast) else p)⟩

/-- `FromIterator<(K, V)> for MultiMap` (src/lib.rs lines 781-797):
insert each pair in sequence order into an initially empty table (the
capacity pre-sizing has no observable effect in the model). -/
def MultiMap.fromList (pairs : List (K × V)) : MultiMap K V :=
  pairs.foldl (fun m p => m.insert p.1 p.2) MultiMap.empty

/-- `PartialEq for MultiMap` (src/lib.rs lines 745-759): equal lengths
and every entry of `self` found in `other` with an element-wise equal
group (`other.get_slice(key).map_or(false, |v| *value == *v)`). -/
def MultiMap.beq (m1 m2 : MultiMap K V) : Bool :=
  decide (m1.len = m2.len) &&
    m1.iterAll.all (fun p =>
      (m2.getSlice p.1).elim false (fun v => decide (p.2 = v)))

/-- Repeated `MultiMap::insert` of each value of `vs` for the same key,
in order — the claimed specification of `insert_many`. -/
def MultiMap.insertEach (m : MultiMap K V) (k : K) (vs : List V) :
    MultiMap K V :=
  vs.foldl (fun acc v => acc.insert k v) m

/-- The documented table invariant (spec section 3): every key present
in the table maps to a non-empty group. -/
def MultiMap.NonEmptyGroups (m : MultiMap K V) : Prop :=
  ∀ p ∈ m.inner, p.2 ≠ []

/-- The hash-table representation invariant: entry keys are pairwise
distinct. Every map reachable through the public API satisfies it. -/
def MultiMap.NodupKeys (m : MultiMap K V) : Prop :=
  (m.inner.map Prod.fst).Nodup

/-- The values a sequence of `(key, value)` insert calls carries for one
key `k`, in call order. -/
def valuesFor (pairs : List (K × V)) (k : K) : List V :=
  (pairs.filter (fun p => p.1 = k)).map Prod.snd

instance (m : MultiMap K V) : Decidable m.NonEmptyGroups := by
  unfold MultiMap.NonEmptyGroups; infer_instance

instance (m : MultiMap K V) : Decidable m.NodupKeys := by
  unfold MultiMap.NodupKeys; infer_instance

/-! ### Helper lemmas about the embedded hash table -/

theorem hmGet_entryUpdate (l : List (K × List V)) (k k2 : K)
    (f : List V → List V) (v0 : List V) :
    hmGet (entryUpdate l k f v0) k2 =
      if k2 = k then some ((hmGet l k).elim v0 f) else hmGet l k2 := by
  induction l with
  | nil =>
    rcases eq_or_ne k2 k with rfl | h
    · simp [hmGet, entryUpdate]
    · simp [hmGet, entryUpdate, h, Ne.symm h]
  | cons p rest ih =>
    obtain ⟨k1, g⟩ := p
    rcases eq_or_ne k1 k with rfl | h1
    · rcases eq_or_ne k2 k1 with rfl | h2
      · simp [hmGet, entryUpdate]
      · simp [hmGet, entryUpdate, h2, Ne.symm h2]
    · rcases eq_or_ne k2 k1 with rfl | h2
      · simp [hmGet, entryUpdate, h1]
      · simp [hmGet, entryUpdate, h1, h2, Ne.symm h2, ih]

theorem length_entryUpdate (l : List (K × List V)) (k : K)
    (f : List V → List V) (v0 : List V) :
    (entryUpdate l k f v0).length =
      if (hmGet l k).isSome then l.length else l.length + 1 := by
  induction l with
  | nil => simp [hmGet, entryUpdate]
  | cons p rest ih =>
    obtain ⟨k1, g⟩ := p
    by_cases h1 : k1 = k <;>
      simp [hmGet, entryUpdate, h1, ih] <;> split <;> simp

theorem keys_entryUpdate (l : List (K × List V)) (k : K)
    (f : List V → List V) (v0 : List V) :
    (entryUpdate l k f v0).map Prod.fst =
      if (hmGet l k).isSome then l.map Prod.fst
      else l.map Prod.fst ++ [k] := by
  induction l with
  | nil => simp [hmGet, entryUpdate]
  | cons p rest ih =>
    obtain ⟨k1, g⟩ := p
    by_cases h1 : k1 = k <;>
      simp [hmGet, entryUpdate, h1, ih] <;> split <;> simp

theorem hmGet_eq_none_iff (l : List (K × List V)) (k : K) :
    hmGet l k = none ↔ k ∉ l.map Prod.fst := by
  induction l with
  | nil => simp [hmGet]
  | cons p rest ih =>
    obtain ⟨k1, g⟩ := p
    rcases eq_or_ne k1 k with rfl | h1
    · simp [hmGet]
    · simp [hmGet, h1, Ne.symm h1, ih]

theorem hmGet_isSome_iff (l : List (K × List V)) (k : K) :
    (hmGet l k).isSome = true ↔ k ∈ l.map Prod.fst := by
  rw [Option.isSome_iff_ne_none, ne_eq, hmGet_eq_none_iff]
  simp

theorem mem_of_hmGet_eq_some (l : List (K × List V)) (k : K) (g : List V)
    (h : hmGet l k = some g) : (k, g) ∈ l := by
  induction l with
  | nil => simp [hmGet] at h
  | cons p rest ih =>
    obtain ⟨k1, g1⟩ := p
    by_cases h1 : k1 = k
    · subst h1
      simp [hmGet] at h
      simp [h]
    · simp [hmGet, h1] at h
      simp [ih h]

theorem hmGet_eq_some_of_mem (l : List (K × List V)) (k : K) (g : List V)
    (hnd : (l.map Prod.fst).Nodup) (h : (k, g) ∈ l) :
    hmGet l k = some g := by
  induction l with
  | nil => simp at h
  | cons p rest ih =>
    obtain ⟨k1, g1⟩ := p
    simp only [List.map_cons, List.nodup_cons] at hnd
    rcases List.mem_cons.mp h with h2 | h2
    · rw [show k1 = k from (Prod.mk.injEq .. ▸ h2.symm).1]
      simp [hmGet, (Prod.mk.injEq .. ▸ h2.symm).2]
    · have hk1 : k1 ≠ k := by
        rintro rfl
        exact hnd.1 (List.mem_map.mpr ⟨(k1, g), h2, rfl⟩)
      simp [hmGet, hk1, ih hnd.2 h2]

theorem mem_keys_iff (l : List (K × List V)) (k : K) :
    k ∈ l.map Prod.fst ↔ ∃ g, (k, g) ∈ l := by
  constructor
  · intro h
    obtain ⟨p, hp, he⟩ := List.mem_map.mp h
    exact ⟨p.2, by rwa [show (k, p.2) = p from by rw [← he]]⟩
  · rintro ⟨g, hg⟩
    exact List.mem_map.mpr ⟨(k, g), hg, rfl⟩

theorem nonEmpty_entryUpdate (l : List (K × List V)) (k : K)
    (f : List V → List V) (v0 : List V)
    (hl : ∀ p ∈ l, p.2 ≠ [])
    (hf : ∀ g, g ≠ [] → f g ≠ [])
    (hv : hmGet l k = none → v0 ≠ []) :
    ∀ p ∈ entryUpdate l k f v0, p.2 ≠ [] := by
  induction l with
  | nil =>
    intro p hp
    have he : p = (k, v0) := by simpa [entryUpdate] using hp
    subst he
    exact hv rfl
  | cons q rest ih =>
    obtain ⟨k1, g1⟩ := q
    intro p hp
    by_cases h1 : k1 = k
    · subst h1
      simp only [entryUpdate, if_true, reduceIte, List.mem_cons] at hp
      rcases hp with hp | hp
      · subst hp
        exact hf g1 (hl (k1, g1) (List.mem_cons_self ..))
      · exact hl p (List.mem_cons_of_mem _ hp)
    · simp only [entryUpdate, if_neg h1, List.mem_cons] at hp
      rcases hp with hp | hp
      · subst hp
        exact hl (k1, g1) (List.mem_cons_self ..)
      · refine ih (fun q hq => hl q (List.mem_cons_of_mem _ hq)) ?_ p hp
        intro h
        apply hv
        simp [hmGet, h1, h]

theorem nodupKeys_entryUpdate (l : List (K × List V)) (k : K)
    (f : List V → List V) (v0 : List V)
    (hnd : (l.map Prod.fst).Nodup) :
    ((entryUpdate l k f v0).map Prod.fst).Nodup := by
  rw [keys_entryUpdate]
  split
  · exact hnd
  · next h =>
    rw [List.nodup_append]
    refine ⟨hnd, List.nodup_singleton k, ?_⟩
    intro a ha hb
    simp only [List.mem_singleton] at hb
    subst hb
    rw [← hmGet_isSome_iff] at ha
    simp [ha] at h

theorem containsKey_eq_isSome_getSlice (m : MultiMap K V) (k : K) :
    m.containsKey k = (m.getSlice k).isSome := rfl

theorem getSlice_insert (m : MultiMap K V) (k k2 : K) (v : V) :
    (m.insert k v).getSlice k2 =
      if k2 = k then some ((m.getSlice k).getD [] ++ [v])
      else m.getSlice k2 := by
  show hmGet (entryUpdate m.inner k (fun g => g ++ [v]) [v]) k2 = _
  rw [hmGet_entryUpdate]
  cases h : hmGet m.inner k <;> simp [MultiMap.getSlice, h]

theorem containsKey_insert_self (m : MultiMap K V) (k : K) (v : V) :
    (m.insert k v).containsKey k = true := by
  rw [containsKey_eq_isSome_getSlice, getSlice_insert]
  simp

theorem getSlice_empty (k : K) : (MultiMap.empty : MultiMap K V).getSlice k = none := rfl

theorem valuesFor_cons (p : K × V) (pairs : List (K × V)) (k : K) :
    valuesFor (p :: pairs) k =
      if p.1 = k then p.2 :: valuesFor pairs k else valuesFor pairs k := by
  rcases eq_or_ne p.1 k with h | h <;> simp [valuesFor, h]

theorem valuesFor_eq_nil_iff (pairs : List (K × V)) (k : K) :
    valuesFor pairs k = [] ↔ k ∉ pairs.map Prod.fst := by
  induction pairs with
  | nil => simp [valuesFor]
  | cons p rest ih =>
    rw [valuesFor_cons]
    rcases eq_or_ne p.1 k with h | h
    · simp [h]
    · simp [h, Ne.symm h, ih]

theorem getSlice_foldl_insert (pairs : List (K × V)) (m : MultiMap K V)
    (k : K) :
    (pairs.foldl (fun acc p => acc.insert p.1 p.2) m).getSlice k =
      match m.getSlice k with
      | some g => some (g ++ valuesFor pairs k)
      | none =>
        if valuesFor pairs k = [] then none else some (valuesFor pairs k) := by
  induction pairs generalizing m with
  | nil => cases h : m.getSlice k <;> simp [valuesFor, h]
  | cons p rest ih =>
    obtain ⟨k1, v1⟩ := p
    rw [List.foldl_cons, ih, valuesFor_cons]
    rcases eq_or_ne k1 k with rfl | h1
    · rw [getSlice_insert, if_pos rfl]
      cases h : m.getSlice k1 <;> simp [h]
    · rw [getSlice_insert, if_neg (Ne.symm h1), if_neg h1]

theorem nodupKeys_insert (m : MultiMap K V) (k : K) (v : V)
    (h : m.NodupKeys) : (m.insert k v).NodupKeys :=
  nodupKeys_entryUpdate m.inner k (fun g => g ++ [v]) [v] h

theorem nodupKeys_foldl_insert (pairs : List (K × V)) (m : MultiMap K V)
    (h : m.NodupKeys) :
    (pairs.foldl (fun acc p => acc.insert p.1 p.2) m).NodupKeys := by
  induction pairs generalizing m with
  | nil => exact h
  | cons p rest ih => exact ih (m.insert p.1 p.2) (nodupKeys_insert m p.1 p.2 h)

theorem nodupKeys_fromList (pairs : List (K × V)) :
    (MultiMap.fromList pairs).NodupKeys :=
  nodupKeys_foldl_insert pairs MultiMap.empty (by simp [MultiMap.NodupKeys, MultiMap.empty])

theorem entryUpdate_congr_id (l : List (K × List V)) (k : K)
    (f : List V → List V) (v0 : List V) (hf : ∀ g, f g = g)
    (h : (hmGet l k).isSome = true) : entryUpdate l k f v0 = l := by
  induction l with
  | nil => simp [hmGet] at h
  | cons p rest ih =>
    obtain ⟨k1, g⟩ := p
    rcases eq_or_ne k1 k with rfl | h1
    · simp [entryUpdate, hf]
    · rw [hmGet, if_neg h1] at h
      simp [entryUpdate, h1, ih h]

theorem insertMany_nil_of_containsKey (m : MultiMap K V) (k : K)
    (h : m.containsKey k = true) : m.insertMany k [] = m := by
  obtain ⟨inner⟩ := m
  simp only [MultiMap.insertMany, MultiMap.mk.injEq]
  exact entryUpdate_congr_id inner k _ [] (fun g => List.append_nil g) h

theorem insertMany_cons (m : MultiMap K V) (k : K) (v : V) (vs : List V) :
    m.insertMany k (v :: vs) = (m.insert k v).insertMany k vs := by
  obtain ⟨inner⟩ := m
  simp only [MultiMap.insertMany, MultiMap.insert, MultiMap.mk.injEq]
  induction inner with
  | nil => simp [entryUpdate]
  | cons p rest ih =>
    obtain ⟨k1, g⟩ := p
    rcases eq_or_ne k1 k with rfl | h1
    · simp [entryUpdate]
    · simp [entryUpdate, h1, ih]

theorem hmGet_filter_ne (l : List (K × List V)) (k : K) :
    hmGet (l.filter (fun p => p.1 ≠ k)) k = none := by
  rw [hmGet_eq_none_iff]
  intro hmem
  obtain ⟨g, hg⟩ := (mem_keys_iff _ _).mp hmem
  have := List.of_mem_filter hg
  simp at this

theorem elim_eq_true_iff (o : Option (List V)) (g : List V) :
    (o.elim false (fun v => decide (g = v))) = true ↔ o = some g := by
  cases o <;> simp [Option.elim, eq_comm]

theorem beq_eq_true_iff (m1 m2 : MultiMap K V) :
    MultiMap.beq m1 m2 = true ↔
      (m1.len = m2.len ∧ ∀ p ∈ m1.iterAll, m2.getSlice p.1 = some p.2) := by
  rw [MultiMap.beq, Bool.and_eq_true, decide_eq_true_iff, List.all_eq_true]
  constructor
  · rintro ⟨hl, ha⟩
    exact ⟨hl, fun p hp => (elim_eq_true_iff _ _).mp (ha p hp)⟩
  · rintro ⟨hl, ha⟩
    exact ⟨hl, fun p hp => (elim_eq_true_iff _ _).mpr (ha p hp)⟩

theorem beq_true_symm (m1 m2 : MultiMap K V) (h1 : m1.NodupKeys)
    (h2 : m2.NodupKeys) (h : MultiMap.beq m1 m2 = true) :
    MultiMap.beq m2 m1 = true := by
  rw [beq_eq_true_iff] at h ⊢
  obtain ⟨hlen, hall⟩ := h
  have hsub : ∀ a ∈ m1.inner.map Prod.fst, a ∈ m2.inner.map Prod.fst := by
    intro a ha
    obtain ⟨g, hg⟩ := (mem_keys_iff _ _).mp ha
    exact (mem_keys_iff _ _).mpr
      ⟨g, mem_of_hmGet_eq_some _ _ _ (hall (a, g) hg)⟩
  have hfin : (m1.inner.map Prod.fst).toFinset =
      (m2.inner.map Prod.fst).toFinset := by
    apply Finset.eq_of_subset_of_card_le
    · intro a ha
      exact List.mem_toFinset.mpr (hsub a (List.mem_toFinset.mp ha))
    · rw [List.toFinset_card_of_nodup h1, List.toFinset_card_of_nodup h2]
      simp only [List.length_map]
      exact le_of_eq hlen.symm
  refine ⟨hlen.symm, ?_⟩
  intro p hp
  have hk1 : p.1 ∈ m1.inner.map Prod.fst := by
    rw [← List.mem_toFinset, hfin, List.mem_toFinset]
    exact (mem_keys_iff _ _).mpr ⟨p.2, hp⟩
  obtain ⟨g, hg⟩ := (mem_keys_iff _ _).mp hk1
  have hget2 : hmGet m2.inner p.1 = some g := hall (p.1, g) hg
  have hget2b : hmGet m2.inner p.1 = some p.2 :=
    hmGet_eq_some_of_mem m2.inner p.1 p.2 h2 hp
  have hgp : g = p.2 := by
    rw [hget2] at hget2b
    exact Option.some.inj hget2b
  rw [hgp] at hg
  exact hmGet_eq_some_of_mem m1.inner p.1 p.2 h1 hg

theorem hmGet_retainList (l : List (K × List V)) (f : K → V → Bool) (k : K)
    (hnd : (l.map Prod.fst).Nodup) :
    hmGet ((l.map (fun p => (p.1, p.2.filter (f p.1)))).filter
        (fun p => !p.2.isEmpty)) k =
      match hmGet l k with
      | none => none
      | some g =>
        if g.filter (f k) = [] then none else some (g.filter (f k)) := by
  induction l with
  | nil => simp [hmGet]
  | cons p rest ih =>
    obtain ⟨k1, g⟩ := p
    simp only [List.map_cons, List.nodup_cons] at hnd
    simp only [List.map_cons, List.filter_cons]
    by_cases hg : g.filter (f k1) = []
    · rw [if_neg (by simp [hg])]
      rcases eq_or_ne k1 k with rfl | h1
      · have hrest : hmGet rest k1 = none := by
          rw [hmGet_eq_none_iff]
          exact hnd.1
        rw [ih hnd.2, hrest]
        simp [hmGet, hg]
      · rw [ih hnd.2]
        simp [hmGet, h1]
    · rw [if_pos (by simp [hg])]
      rcases eq_or_ne k1 k with rfl | h1
      · simp [hmGet, hg]
      · simp only [hmGet]
        rw [if_neg h1, ih hnd.2]
        simp [hmGet, h1]

theorem insertMany_eq_insertEach_aux (vs : List V) :
    ∀ (m : MultiMap K V) (k : K), vs ≠ [] ∨ m.containsKey k = true →
      m.insertMany k vs = m.insertEach k vs := by
  induction vs with
  | nil =>
    intro m k h
    rcases h with h | h
    · exact absurd rfl h
    · exact insertMany_nil_of_containsKey m k h
  | cons v rest ih =>
    intro m k h
    rw [insertMany_cons]
    exact ih (m.insert k v) k (Or.inr (containsKey_insert_self m k v))

theorem getSlice_eq_none_of_not_containsKey (m : MultiMap K V) (k : K)
    (h : m.containsKey k = false) : m.getSlice k = none := by
  rw [containsKey_eq_isSome_getSlice] at h
  cases ho : m.getSlice k
  · rfl
  · rw [ho] at h
    simp at h

/-! ### Claim theorems -/

/-- Claim C1: for every key `k` and every finite sequence of
`insert(k, v)` calls interleaved with inserts for other keys (the
sequence `pairs` applied in order to the empty map), `getSlice(k)`
returns exactly the values inserted for `k`, in the order of the insert
calls, and no other values (and reports absence when no value was ever
inserted for `k`). -/
theorem c1_getSlice_after_inserts (pairs : List (K × V)) (k : K) :
    (MultiMap.fromList pairs).getSlice k =
      if valuesFor pairs k = [] then none
      else some (valuesFor pairs k) := by
  rw [MultiMap.fromList, getSlice_foldl_insert]
  rfl

/-- Claim C2 counterexample: the empty map satisfies the non-empty-group
invariant, yet `insert_many` with an empty value sequence on the absent
key `1` leaves key `1` mapped to a zero-length group. -/
theorem c2_invariant_counterexample :
    (MultiMap.empty : MultiMap Nat Nat).NonEmptyGroups ∧
    ¬ ((MultiMap.empty : MultiMap Nat Nat).insertMany 1 []).NonEmptyGroups := by
  constructor
  · decide
  · decide

/-- Claim C2 (amended): starting from a state with no zero-length group,
`insert`, `remove` and `retain` always preserve that invariant, and
`insert_many` preserves it whenever the inserted sequence is non-empty
or the key is already present; `insert_many` with an empty sequence on
an absent key violates it. -/
theorem c2_invariant_preserved (m : MultiMap K V) (k : K) (v : V)
    (vs : List V) (f : K → V → Bool) (h : m.NonEmptyGroups) :
    (m.insert k v).NonEmptyGroups ∧
    (vs ≠ [] ∨ m.containsKey k = true → (m.insertMany k vs).NonEmptyGroups) ∧
    (m.remove k).2.NonEmptyGroups ∧
    (m.retain f).NonEmptyGroups := by
  refine ⟨?_, ?_, ?_, ?_⟩
  · exact nonEmpty_entryUpdate m.inner k _ [v] h
      (fun g hg => by simp) (fun _ => by simp)
  · intro hvs
    refine nonEmpty_entryUpdate m.inner k _ vs h
      (fun g hg => by simp [hg]) ?_
    intro hnone
    rcases hvs with hvs | hvs
    · exact hvs
    · rw [MultiMap.containsKey, hnone] at hvs
      simp at hvs
  · intro p hp
    exact h p (List.mem_of_mem_filter hp)
  · intro p hp
    have hb := List.of_mem_filter hp
    intro hnil
    rw [hnil] at hb
    simp at hb

/-- Claim C2 witness: the amended invariant theorem applied to the empty
map with a plain insert and with a non-empty `insert_many`. -/
theorem c2_invariant_preserved_witness :
    ((MultiMap.empty : MultiMap Nat Nat).insert 1 2).NonEmptyGroups ∧
    ((MultiMap.empty : MultiMap Nat Nat).insertMany 1 [3]).NonEmptyGroups :=
  ⟨(c2_invariant_preserved MultiMap.empty 1 2 [3] (fun _ _ => true)
      (by decide)).1,
   (c2_invariant_preserved MultiMap.empty 1 2 [3] (fun _ _ => true)
      (by decide)).2.1 (Or.inl (by decide))⟩

/-- Claim C3 counterexample: `insert_many` with the empty sequence on an
absent key is observably different from performing no `insert` call:
the key becomes present and `len` grows. -/
theorem c3_insertMany_counterexample :
    ((MultiMap.empty : MultiMap Nat Nat).insertMany 1 []).containsKey 1 = true ∧
    ((MultiMap.empty : MultiMap Nat Nat).insertEach 1 []).containsKey 1 = false ∧
    ((MultiMap.empty : MultiMap Nat Nat).insertMany 1 []).len = 1 ∧
    ((MultiMap.empty : MultiMap Nat Nat).insertEach 1 []).len = 0 := by
  refine ⟨rfl, rfl, rfl, rfl⟩

/-- Claim C3 (amended): when the value sequence is non-empty or the key
is already present, `insert_many(k, vs)` produces a map equal to
calling `insert(k, v)` once per value of `vs` in order — in particular
the two agree on `contains_key`, `len` and `get_slice`; when `vs` is
empty and `k` absent they differ (`insert_many` creates `k` with a
zero-length group, repeated insert does nothing). -/
theorem c3_insertMany_eq_repeated_insert (m : MultiMap K V) (k : K)
    (vs : List V) (h : vs ≠ [] ∨ m.containsKey k = true) :
    m.insertMany k vs = m.insertEach k vs ∧
    (m.insertMany k vs).containsKey k = (m.insertEach k vs).containsKey k ∧
    (m.insertMany k vs).len = (m.insertEach k vs).len ∧
    ∀ k2, (m.insertMany k vs).getSlice k2 = (m.insertEach k vs).getSlice k2 := by
  have heq := insertMany_eq_insertEach_aux vs m k h
  exact ⟨heq, by rw [heq], by rw [heq], fun k2 => by rw [heq]⟩

/-- Claim C3 witness: the amended equivalence at a concrete map. -/
theorem c3_insertMany_eq_repeated_insert_witness :
    (MultiMap.empty : MultiMap Nat Nat).insertMany 1 [2, 3] =
      (MultiMap.empty : MultiMap Nat Nat).insertEach 1 [2, 3] :=
  (c3_insertMany_eq_repeated_insert MultiMap.empty 1 [2, 3]
    (Or.inl (by decide))).1

/-- Claim C4 counterexample: after popping the only value of key `1`
through the `get_all_mut` handle, `get_slice(1)` does not report
absence — it returns the present empty group — although `get(1)` does
return `None`. -/
theorem c4_getSlice_counterexample :
    (((MultiMap.empty : MultiMap Nat Nat).insert 1 42).pop 1).getSlice 1 =
      some [] ∧
    (((MultiMap.empty : MultiMap Nat Nat).insert 1 42).pop 1).get 1 = none ∧
    (((MultiMap.empty : MultiMap Nat Nat).insert 1 42).pop 1).containsKey 1 =
      true := by
  refine ⟨rfl, rfl, rfl⟩

/-- Claim C4 (amended): in every state where key `k` is present mapped
to an empty group (as after popping every value through the
`get_all_mut` handle), `get(k)` returns no value, while `contains_key`
is true, `keys()` still yields `k` and `len()` still counts its entry;
however `get_slice(k)` does not report absence — it returns the empty
group. -/
theorem c4_empty_group_observations (m : MultiMap K V) (k : K)
    (h : m.getSlice k = some []) :
    m.get k = none ∧
    m.getSlice k ≠ none ∧
    m.containsKey k = true ∧
    k ∈ m.keys ∧
    m.keys.length = m.len := by
  refine ⟨?_, ?_, ?_, ?_, ?_⟩
  · rw [MultiMap.get, show hmGet m.inner k = some [] from h]
    rfl
  · rw [h]
    simp
  · rw [containsKey_eq_isSome_getSlice, h]
    rfl
  · exact List.mem_map.mpr
      ⟨(k, []), mem_of_hmGet_eq_some m.inner k [] h, rfl⟩
  · exact List.length_map m.inner Prod.fst

/-- Claim C4 witness: the amended theorem at the popped concrete state. -/
theorem c4_empty_group_observations_witness :
    (((MultiMap.empty : MultiMap Nat Nat).insert 1 42).pop 1).get 1 = none :=
  (c4_empty_group_observations
    (((MultiMap.empty : MultiMap Nat Nat).insert 1 42).pop 1) 1 rfl).1

/-- Claim C5: `remove(k)` returns the whole group of `k` in original
order (absence signalled by `None`, in which case the map is
unchanged); afterwards `contains_key(k)` is false and `get(k)` is
`None`; and `insert(k, v)` on a map without `k` followed by `remove(k)`
returns exactly the singleton sequence `[v]`. -/
theorem c5_remove_spec (m : MultiMap K V) (k : K) (v : V) :
    (m.remove k).1 = m.getSlice k ∧
    (m.containsKey k = false → (m.remove k).2 = m) ∧
    (m.remove k).2.containsKey k = false ∧
    (m.remove k).2.get k = none ∧
    (m.containsKey k = false → ((m.insert k v).remove k).1 = some [v]) := by
  have hnone : hmGet (m.inner.filter (fun p => p.1 ≠ k)) k = none :=
    hmGet_filter_ne m.inner k
  refine ⟨rfl, ?_, ?_, ?_, ?_⟩
  · intro h
    have h := getSlice_eq_none_of_not_containsKey m k h
    obtain ⟨inner⟩ := m
    simp only [MultiMap.remove, MultiMap.mk.injEq]
    apply List.filter_eq_self.mpr
    intro p hp
    have : k ∉ inner.map Prod.fst :=
      (hmGet_eq_none_iff inner k).mp h
    simp only [decide_eq_true_eq]
    intro hpk
    exact this (List.mem_map.mpr ⟨p, hp, hpk⟩)
  · rw [containsKey_eq_isSome_getSlice]
    show (hmGet (m.inner.filter (fun p => p.1 ≠ k)) k).isSome = false
    rw [hnone]
    rfl
  · show (hmGet (m.inner.filter (fun p => p.1 ≠ k)) k).bind List.head? = none
    rw [hnone]
    rfl
  · intro h
    show (m.insert k v).getSlice k = some [v]
    rw [getSlice_insert, if_pos rfl,
      getSlice_eq_none_of_not_containsKey m k h]
    rfl

/-- Claim C5 witness: insert then remove on a fresh key returns the
singleton group, and the removed key is gone. -/
theorem c5_remove_spec_witness :
    (((MultiMap.empty : MultiMap Nat Nat).insert 1 42).remove 1).1 =
      some [42] :=
  (c5_remove_spec (MultiMap.empty : MultiMap Nat Nat) 1 42).2.2.2.2 rfl

/-- Claim C6: `retain(pred)` leaves, for every key, exactly the values
of its group satisfying the predicate, in their original relative
order, and removes every key whose group becomes empty; concretely,
inserting `(1,42), (1,99), (2,42)` and retaining on `k = 1 && v = 42`
leaves `len = 1`, `get 1 = some 42` and `containsKey 2 = false`. -/
theorem c6_retain_spec (m : MultiMap K V) (f : K → V → Bool) (k : K)
    (h : m.NodupKeys) :
    ((m.retain f).getSlice k =
      match m.getSlice k with
      | none => none
      | some g =>
        if g.filter (f k) = [] then none else some (g.filter (f k))) ∧
    (((((MultiMap.empty : MultiMap Nat Nat).insert 1 42).insert 1 99).insert
        2 42).retain (fun k2 v2 => decide (k2 = 1) && decide (v2 = 42))).len
      = 1 ∧
    (((((MultiMap.empty : MultiMap Nat Nat).insert 1 42).insert 1 99).insert
        2 42).retain (fun k2 v2 => decide (k2 = 1) && decide (v2 = 42))).get 1
      = some 42 ∧
    (((((MultiMap.empty : MultiMap Nat Nat).insert 1 42).insert 1 99).insert
        2 42).retain
        (fun k2 v2 => decide (k2 = 1) && decide (v2 = 42))).containsKey 2
      = false := by
  exact ⟨hmGet_retainList m.inner f k h, rfl, rfl, rfl⟩

/-- Claim C6 witness: the general retain characterization applied to a
concrete two-value group keeps exactly the passing value. -/
theorem c6_retain_spec_witness :
    ((((MultiMap.empty : MultiMap Nat Nat).insert 1 42).insert 1 99).retain
      (fun k2 v2 => decide (k2 = 1) && decide (v2 = 42))).getSlice 1 =
      some [42] :=
  ((c6_retain_spec (((MultiMap.empty : MultiMap Nat Nat).insert 1 42).insert
        1 99)
      (fun k2 v2 => decide (k2 = 1) && decide (v2 = 42)) 1
      (by decide)).1).trans (by decide)

/-- Claim C7 counterexample: key `1` is present (made so by
`insert_many` with an empty sequence) yet the index operation still
faults — with the out-of-bounds panic rather than the missing-key
panic — so faulting is not restricted to absent keys. -/
theorem c7_index_counterexample :
    ((MultiMap.empty : MultiMap Nat Nat).insertMany 1 []).containsKey 1 =
      true ∧
    ((MultiMap.empty : MultiMap Nat Nat).insertMany 1 []).index 1 =
      Except.error "index out of bounds" :=
  ⟨rfl, rfl⟩

/-- Claim C7 (amended): indexing an absent key is a fatal fault with
the descriptive message "no entry found for key"; indexing a present
key returns its first-inserted value whenever the group is non-empty;
but a present key with a zero-length group also faults (out of
bounds), so the fault condition is absence or an empty group, not
absence alone. -/
theorem c7_index_spec (m : MultiMap K V) (k : K) :
    (m.containsKey k = false →
      m.index k = Except.error "no entry found for key") ∧
    (∀ v, m.get k = some v → m.index k = Except.ok v) ∧
    (m.getSlice k = some [] →
      m.index k = Except.error "index out of bounds") := by
  refine ⟨?_, ?_, ?_⟩
  · intro h
    have h2 : hmGet m.inner k = none :=
      getSlice_eq_none_of_not_containsKey m k h
    simp only [MultiMap.index, h2]
  · intro v hv
    rw [MultiMap.get] at hv
    cases hg : hmGet m.inner k with
    | none =>
      rw [hg] at hv
      simp at hv
    | some g =>
      rw [hg] at hv
      have hv2 : g.head? = some v := by simpa using hv
      simp only [MultiMap.index, hg, hv2]
  · intro h
    have h2 : hmGet m.inner k = some [] := h
    simp only [MultiMap.index, h2, List.head?]

/-- Claim C7 witness: indexing a present single-valued key returns that
value. -/
theorem c7_index_spec_witness :
    ((MultiMap.empty : MultiMap Nat Nat).insert 1 42).index 1 =
      Except.ok 42 :=
  (c7_index_spec ((MultiMap.empty : MultiMap Nat Nat).insert 1 42) 1).2.1
    42 rfl

/-- Claim C8: two tables are equal iff they have the same number of
keys and every key of one maps in the other to an element-wise equal
group in the same order; the comparison is symmetric, insensitive to
the relative insertion order of distinct keys (a permuted entry list
compares equal), and sensitive to value order within a group:
`{1: [2, 3]}` differs from `{1: [3, 2]}`, while `{1: [2], 2: [3]}`
built in either insertion order compares equal. -/
theorem c8_eq_spec (m1 m2 : MultiMap K V) (h1 : m1.NodupKeys)
    (h2 : m2.NodupKeys) :
    (MultiMap.beq m1 m2 = true ↔
      (m1.len = m2.len ∧ ∀ p ∈ m1.iterAll, m2.getSlice p.1 = some p.2)) ∧
    MultiMap.beq m1 m2 = MultiMap.beq m2 m1 ∧
    (m1.inner.Perm m2.inner → MultiMap.beq m1 m2 = true) ∧
    MultiMap.beq (((MultiMap.empty : MultiMap Nat Nat).insert 1 2).insert 1 3)
        (((MultiMap.empty : MultiMap Nat Nat).insert 1 3).insert 1 2) =
      false ∧
    MultiMap.beq (((MultiMap.empty : MultiMap Nat Nat).insert 1 2).insert 2 3)
        (((MultiMap.empty : MultiMap Nat Nat).insert 2 3).insert 1 2) =
      true := by
  refine ⟨beq_eq_true_iff m1 m2, ?_, ?_, rfl, rfl⟩
  · cases hb : MultiMap.beq m1 m2 <;> cases hc : MultiMap.beq m2 m1
    · rfl
    · exact absurd (beq_true_symm m2 m1 h2 h1 hc) (by simp [hb])
    · exact absurd (beq_true_symm m1 m2 h1 h2 hb) (by simp [hc])
    · rfl
  · intro hperm
    rw [beq_eq_true_iff]
    refine ⟨?_, ?_⟩
    · simpa [MultiMap.len] using hperm.length_eq
    · intro p hp
      exact hmGet_eq_some_of_mem m2.inner p.1 p.2 h2 (hperm.mem_iff.mp hp)

/-- Claim C8 witness: symmetry of the equality comparison at two
concrete tables built in opposite key orders. -/
theorem c8_eq_spec_witness :
    MultiMap.beq (((MultiMap.empty : MultiMap Nat Nat).insert 1 2).insert 2 3)
        (((MultiMap.empty : MultiMap Nat Nat).insert 2 3).insert 1 2) =
      MultiMap.beq (((MultiMap.empty : MultiMap Nat Nat).insert 2 3).insert
          1 2)
        (((MultiMap.empty : MultiMap Nat Nat).insert 1 2).insert 2 3) :=
  (c8_eq_spec (((MultiMap.empty : MultiMap Nat Nat).insert 1 2).insert 2 3)
    (((MultiMap.empty : MultiMap Nat Nat).insert 2 3).insert 1 2)
    (by decide) (by decide)).2.1

/-- Claim C9: building a map from a finite sequence of `(K, V)` pairs
(inserting each pair in sequence order) and then calling `iter_all`
yields, for every key, exactly the ordered group of values determined
by the relative order of the pairs for that key: `(k, g)` is an entry iff
`k` occurs among the pairs and `g` lists its values in order. -/
theorem c9_fromList_iterAll_roundtrip (pairs : List (K × V)) (k : K)
    (g : List V) :
    (k, g) ∈ (MultiMap.fromList pairs).iterAll ↔
      (k ∈ pairs.map Prod.fst ∧ g = valuesFor pairs k) := by
  have hnd := nodupKeys_fromList pairs
  have hchar : (MultiMap.fromList pairs).getSlice k =
      if valuesFor pairs k = [] then none
      else some (valuesFor pairs k) := by
    rw [MultiMap.fromList, getSlice_foldl_insert]
    rfl
  constructor
  · intro hmem
    have hget : hmGet (MultiMap.fromList pairs).inner k = some g :=
      hmGet_eq_some_of_mem _ _ _ hnd hmem
    rw [show (MultiMap.fromList pairs).getSlice k =
        hmGet (MultiMap.fromList pairs).inner k from rfl, hget] at hchar
    by_cases hv : valuesFor pairs k = []
    · rw [if_pos hv] at hchar
      exact absurd hchar (by simp)
    · rw [if_neg hv] at hchar
      refine ⟨?_, ?_⟩
      · by_contra hk
        exact hv ((valuesFor_eq_nil_iff pairs k).mpr hk)
      · exact Option.some.inj hchar
  · rintro ⟨hk, rfl⟩
    have hv : valuesFor pairs k ≠ [] := by
      intro h0
      exact ((valuesFor_eq_nil_iff pairs k).mp h0) hk
    rw [if_neg hv] at hchar
    exact mem_of_hmGet_eq_some _ _ _ hchar

/-- Claim C9 witness: the round-trip at a concrete pair sequence with a
repeated key. -/
theorem c9_fromList_iterAll_roundtrip_witness :
    (1, [5, 7]) ∈
      (MultiMap.fromList [(1, 5), (2, 6), (1, 7)] : MultiMap Nat Nat).iterAll :=
  (c9_fromList_iterAll_roundtrip [(1, 5), (2, 6), (1, 7)] 1 [5, 7]).mpr
    ⟨by decide, by decide⟩

/-- Claim C10: calling `insert_many` with an empty sequence on an
absent key makes the key present with a zero-length group: afterwards
`contains_key` is true and `len` grew by one, yet `get` returns
`None`, `get_slice` returns the empty group and `is_vec` is false. -/
theorem c10_insertMany_empty (m : MultiMap K V) (k : K)
    (h : m.containsKey k = false) :
    (m.insertMany k []).containsKey k = true ∧
    (m.insertMany k []).len = m.len + 1 ∧
    (m.insertMany k []).get k = none ∧
    (m.insertMany k []).getSlice k = some [] ∧
    (m.insertMany k []).isVec k = false := by
  have hn : hmGet m.inner k = none :=
    getSlice_eq_none_of_not_containsKey m k h
  have hs : (m.insertMany k []).getSlice k = some [] := by
    show hmGet (entryUpdate m.inner k (fun g => g ++ []) []) k = some []
    rw [hmGet_entryUpdate, if_pos rfl, hn]
    rfl
  refine ⟨?_, ?_, ?_, hs, ?_⟩
  · rw [containsKey_eq_isSome_getSlice, hs]
    rfl
  · show (entryUpdate m.inner k (fun g => g ++ []) []).length =
      m.inner.length + 1
    rw [length_entryUpdate, hn]
    rfl
  · show (hmGet (m.insertMany k []).inner k).bind List.head? = none
    rw [show hmGet (m.insertMany k []).inner k = some [] from hs]
    rfl
  · show (match (m.insertMany k []).getSlice k with
      | some val => decide (1 < val.length)
      | none => false) = false
    rw [hs]
    rfl

/-- Claim C10 witness: the empty-sequence `insert_many` observations at
the empty map. -/
theorem c10_insertMany_empty_witness :
    ((MultiMap.empty : MultiMap Nat Nat).insertMany 1 []).containsKey 1 =
      true :=
  (c10_insertMany_empty (MultiMap.empty : MultiMap Nat Nat) 1 rfl).1

end MultiMapSpec
